import Mathlib

/-!
# Signal trap of the daemon (`cmd/dockerd/trap/trap.go`)

`Trap` subscribes to SIGINT and SIGTERM and starts one goroutine per received
signal.  All goroutines share the `uint32` counter `interruptCount`; each of
them logs, loads the counter, and then either increments it (running the
cleanup handler and exiting with code 0 when the increment returns 1) or
forces an exit with code `128 + signal`.

The goroutines are modelled as small state machines (one program counter per
goroutine) over a shared state; a schedule is a list of actions, each of which
lets the listener loop start a goroutine, lets one goroutine perform its next
atomic step, or lets the caller's cleanup handler return.
-/

namespace Trap

/-! ## Data model -/

/-- A signal number: Go's `syscall.Signal` is an `int`. -/
abbrev Signal := Int

/-- The constant `os.Interrupt`, which is `syscall.SIGINT`, signal number 2. -/
def Interrupt : Signal := 2

/-- The constant `syscall.SIGTERM`, signal number 15. -/
def SIGTERM : Signal := 15

/-- The two signal kinds passed to `signal.Notify` (line 23): only these are
ever delivered on the channel `c`. -/
inductive Monitored
  | interrupt
  | terminate
  deriving DecidableEq, Repr

/-- The signal value delivered on the channel for a monitored kind. -/
def Monitored.sig : Monitored → Signal
  | .interrupt => Interrupt
  | .terminate => SIGTERM

/-- The two texts handed to `logger.Info`. -/
inductive LogMsg
  | processing (sig : Signal)
  | forcing
  deriving DecidableEq, Repr

/-- Observable actions of the goroutines, tagged with the goroutine that
performs them (goroutines are numbered in the order the loop starts them). -/
inductive Event
  | info (tid : Nat) (msg : LogMsg)
  | load (tid : Nat) (v : Nat)
  | add (tid : Nat) (v : Nat)
  | cleanupCall (tid : Nat)
  | cleanupReturn (tid : Nat)
  | exit (tid : Nat) (code : Int)
  deriving DecidableEq, Repr

/-- Program counter of one signal goroutine (lines 27 to 47). -/
inductive PC
  | start
  | atSwitch
  | atAdd
  | atCleanup
  | inCleanup
  | atExit0
  | atForce
  | atExit128
  | done
  deriving DecidableEq, Repr

/-- One goroutine started by `go func(sig os.Signal)`. -/
structure Task where
  sig : Signal
  pc : PC
  deriving DecidableEq, Repr

/-- Width of the counter: `interruptCount` is a `uint32`. -/
def wrap : Nat := 4294967296

/-- Shared state: the counter, the goroutines, whether `os.Exit` was called
(and with which code), and the events so far in chronological order. -/
structure State where
  interruptCount : Nat
  tasks : List Task
  exited : Option Int
  trace : List Event
  deriving DecidableEq, Repr

/-- State when the listener goroutine starts: `interruptCount := uint32(0)`. -/
def init : State := ⟨0, [], none, []⟩

/-- What a schedule may do next. -/
inductive Action
  | spawn (k : Monitored)
  | run (tid : Nat)
  | cleanupReturn (tid : Nat)
  deriving DecidableEq, Repr

/-! ## One atomic step of a goroutine -/

/-- Move goroutine `tid` to program counter `pc`. -/
def State.goto (s : State) (tid : Nat) (t : Task) (pc : PC) : List Task :=
  s.tasks.set tid { t with pc := pc }

/-- The next atomic step of goroutine `tid`, which is `t`, in a live process. -/
def runTask (s : State) (tid : Nat) (t : Task) : State :=
  match t.pc with
  | .start =>
    { s with tasks := s.goto tid t .atSwitch,
             trace := s.trace ++ [.info tid (.processing t.sig)] }
  | .atSwitch =>
    if t.sig = Interrupt ∨ t.sig = SIGTERM then
      if s.interruptCount < 3 then
        { s with tasks := s.goto tid t .atAdd,
                 trace := s.trace ++ [.load tid s.interruptCount] }
      else
        { s with tasks := s.goto tid t .atForce,
                 trace := s.trace ++ [.load tid s.interruptCount] }
    else
      { s with tasks := s.goto tid t .atExit128 }
  | .atAdd =>
    let v := (s.interruptCount + 1) % wrap
    if v = 1 then
      { s with interruptCount := v, tasks := s.goto tid t .atCleanup,
               trace := s.trace ++ [.add tid v] }
    else
      { s with interruptCount := v, tasks := s.goto tid t .done,
               trace := s.trace ++ [.add tid v] }
  | .atCleanup =>
    { s with tasks := s.goto tid t .inCleanup,
             trace := s.trace ++ [.cleanupCall tid] }
  | .inCleanup => s
  | .atExit0 =>
    { s with exited := some 0, trace := s.trace ++ [.exit tid 0] }
  | .atForce =>
    { s with tasks := s.goto tid t .atExit128,
             trace := s.trace ++ [.info tid .forcing] }
  | .atExit128 =>
    { s with exited := some (128 + t.sig),
             trace := s.trace ++ [.exit tid (128 + t.sig)] }
  | .done => s

/-- One scheduling step.  Nothing happens once the process has exited. -/
def step (s : State) (a : Action) : State :=
  match s.exited with
  | some _ => s
  | none =>
    match a with
    | .spawn k => { s with tasks := s.tasks ++ [⟨k.sig, .start⟩] }
    | .run tid =>
      match s.tasks[tid]? with
      | some t => runTask s tid t
      | none => s
    | .cleanupReturn tid =>
      match s.tasks[tid]? with
      | some t =>
        if t.pc = .inCleanup then
          { s with tasks := s.goto tid t .atExit0,
                   trace := s.trace ++ [.cleanupReturn tid] }
        else s
      | none => s

/-- Run a schedule. -/
def exec (s : State) (acts : List Action) : State :=
  acts.foldl step s

/-! ## Events dispatched one at a time -/

/-- The loop receives a signal of kind `k` and its goroutine runs until it
returns, calls `os.Exit`, or is inside the cleanup handler. -/
def dispatch (s : State) (k : Monitored) : State :=
  exec s [.spawn k, .run s.tasks.length, .run s.tasks.length,
          .run s.tasks.length, .run s.tasks.length]

/-- The cleanup handler called by goroutine `tid` returns and the goroutine
goes on to its next statement. -/
def finish (s : State) (tid : Nat) : State :=
  exec s [.cleanupReturn tid, .run tid]

/-- A schedule in which goroutines do not overlap, except with a cleanup
handler that is still running. -/
inductive SeqAction
  | signal (k : Monitored)
  | finish (tid : Nat)
  deriving DecidableEq, Repr

/-- One step of a non-overlapping schedule. -/
def stepSeq (s : State) : SeqAction → State
  | .signal k => dispatch s k
  | .finish tid => finish s tid

/-- Run a non-overlapping schedule. -/
def execSeq (s : State) (acts : List SeqAction) : State :=
  acts.foldl stepSeq s

/-- Dispatch the given signals one after another, the cleanup handler never
returning in between. -/
def signals (ks : List Monitored) : State :=
  execSeq init (ks.map SeqAction.signal)

/-! ## Observations on a trace -/

/-- Number of calls of the cleanup handler. -/
def cleanupCalls (tr : List Event) : Nat :=
  tr.countP fun e => match e with
    | .cleanupCall _ => true
    | _ => false

/-- Number of increments performed. -/
def adds (tr : List Event) : Nat :=
  tr.countP fun e => match e with
    | .add _ _ => true
    | _ => false

/-- Number of increments that returned 1. -/
def addsOne (tr : List Event) : Nat :=
  tr.countP fun e => match e with
    | .add _ v => decide (v = 1)
    | _ => false

/-- Number of calls of `os.Exit`. -/
def exits (tr : List Event) : Nat :=
  tr.countP fun e => match e with
    | .exit _ _ => true
    | _ => false

/-- Goroutines that called the cleanup handler, in order. -/
def cleanupCallers (tr : List Event) : List Nat :=
  tr.filterMap fun e => match e with
    | .cleanupCall tid => some tid
    | _ => none

/-- The increments of a trace, in order, each as the pair of the goroutine
and the value its `atomic.AddUint32` returned. -/
def addEvents (tr : List Event) : List (Nat × Nat) :=
  tr.filterMap fun e => match e with
    | .add tid v => some (tid, v)
    | _ => none

/-! ## A single goroutine -/

/-- The schedule in which the only goroutine runs to completion and its
cleanup handler returns. -/
def soloSchedule : List Action :=
  [.run 0, .run 0, .run 0, .run 0, .cleanupReturn 0, .run 0]

/-- The state of a single goroutine for a signal of kind `k` after `i` steps. -/
def solo (k : Monitored) (i : Nat) : State :=
  exec (step init (.spawn k)) (soloSchedule.take i)

/-- Everything a lone goroutine does when the cleanup handler returns. -/
def soloTrace (k : Monitored) : List Event :=
  [.info 0 (.processing k.sig), .load 0 0, .add 0 1, .cleanupCall 0,
   .cleanupReturn 0, .exit 0 0]

/-! ## Forgetting which signal was received -/

/-- A step of a non-overlapping schedule with the kind of its signal
forgotten. -/
def SeqAction.shape : SeqAction → SeqAction
  | .signal _ => .signal .interrupt
  | .finish tid => .finish tid

/-- An exit code with the signal number of a forced exit forgotten: a clean
exit stays 0, any other code becomes `128 + Interrupt`. -/
def shapeCode (code : Int) : Int :=
  if code = 0 then 0 else 128 + Interrupt

/-- An event with the kind of the signal forgotten: the signal named in the
"Processing signal" log line and the code of a forced exit. -/
def Event.shape : Event → Event
  | .info tid (.processing _) => .info tid (.processing Interrupt)
  | .exit tid code => .exit tid (shapeCode code)
  | e => e

/-- A goroutine with the kind of its signal forgotten. -/
def Task.shape (t : Task) : Task :=
  { t with sig := Interrupt }

/-- A state with the kinds of all signals forgotten; the counter, the program
counters, whether the process has exited (cleanly or not) and the sequence of
events are kept. -/
def State.shape (s : State) : State :=
  { interruptCount := s.interruptCount
    tasks := s.tasks.map Task.shape
    exited := s.exited.map shapeCode
    trace := s.trace.map Event.shape }

/-! ## The goroutine's transitions in relational form -/

/-- A goroutine that has not yet performed its increment and has not taken
the forced branch either. -/
def PC.beforeAdd : PC → Bool
  | .start => true
  | .atSwitch => true
  | .atAdd => true
  | _ => false

/-- The transitions of one goroutine, read off `runTask` and `step`: with the
counter at `c`, goroutine `tid` handling `sig` goes from the first program
counter to the second, performs the listed events, and leaves the counter and
the exit status as given. -/
inductive TaskStep (c tid : Nat) (sig : Signal) :
    PC → PC → List Event → Nat → Option Int → Prop
  | log : TaskStep c tid sig .start .atSwitch [.info tid (.processing sig)] c none
  | loadLow : (sig = Interrupt ∨ sig = SIGTERM) → c < 3 →
      TaskStep c tid sig .atSwitch .atAdd [.load tid c] c none
  | loadHigh : (sig = Interrupt ∨ sig = SIGTERM) → ¬ c < 3 →
      TaskStep c tid sig .atSwitch .atForce [.load tid c] c none
  | other : ¬ (sig = Interrupt ∨ sig = SIGTERM) →
      TaskStep c tid sig .atSwitch .atExit128 [] c none
  | addFirst : (c + 1) % wrap = 1 →
      TaskStep c tid sig .atAdd .atCleanup [.add tid ((c + 1) % wrap)]
        ((c + 1) % wrap) none
  | addLater : (c + 1) % wrap ≠ 1 →
      TaskStep c tid sig .atAdd .done [.add tid ((c + 1) % wrap)]
        ((c + 1) % wrap) none
  | call : TaskStep c tid sig .atCleanup .inCleanup [.cleanupCall tid] c none
  | ret : TaskStep c tid sig .inCleanup .atExit0 [.cleanupReturn tid] c none
  | exit0 : TaskStep c tid sig .atExit0 .atExit0 [.exit tid 0] c (some 0)
  | force : TaskStep c tid sig .atForce .atExit128 [.info tid .forcing] c none
  | exit128 : TaskStep c tid sig .atExit128 .atExit128 [.exit tid (128 + sig)] c
      (some (128 + sig))

/-! ## Invariant of the reachable states -/

/-- Facts that hold in every state reachable from `init`, under any schedule. -/
structure Inv (s : State) : Prop where
  monitored : ∀ (tid : Nat) (t : Task), s.tasks[tid]? = some t → t.sig = Interrupt ∨ t.sig = SIGTERM
  counter : s.interruptCount = adds s.trace % wrap
  ones : addsOne s.trace = (adds s.trace + (wrap - 1)) / wrap
  addsLe : adds s.trace + s.tasks.countP (fun t => t.pc.beforeAdd) ≤ s.tasks.length
  calls : cleanupCalls s.trace + s.tasks.countP (fun t => decide (t.pc = .atCleanup))
    = addsOne s.trace
  past : ∀ (tid : Nat) (t : Task), s.tasks[tid]? = some t → t.pc.beforeAdd = false → 1 ≤ adds s.trace
  gotOne : ∀ (tid : Nat) (t : Task), s.tasks[tid]? = some t → t.pc = .atCleanup →
    Event.add tid 1 ∈ s.trace
  callers : ∀ tid : Nat, Event.cleanupCall tid ∈ s.trace → Event.add tid 1 ∈ s.trace
  inCleanup : ∀ (tid : Nat) (t : Task), s.tasks[tid]? = some t → t.pc = .inCleanup →
    Event.cleanupCall tid ∈ s.trace
  atExit0 : ∀ (tid : Nat) (t : Task), s.tasks[tid]? = some t → t.pc = .atExit0 →
    Event.cleanupCall tid ∈ s.trace ∧ Event.cleanupReturn tid ∈ s.trace
  alive : s.exited = none → exits s.trace = 0
  exitEv : ∀ (tid : Nat) (code : Int), Event.exit tid code ∈ s.trace →
    s.exited = some code ∧ exits s.trace = 1 ∧
    ∃ t, s.tasks[tid]? = some t ∧
      ((code = 0 ∧ t.pc = .atExit0) ∨ (code = 128 + t.sig ∧ t.pc = .atExit128))

/-! ## A schedule with many racing goroutines -/

/-- Goroutines `0` to `n - 1`, in this order, take two steps each. -/
def racePhase : Nat → List Action
  | 0 => []
  | n + 1 => racePhase n ++ [.run n, .run n]

/-- The loop starts `n` goroutines for `n` interrupts; all of them log and
load the counter before any of them increments it; then each of them
increments the counter and takes one more step, which is the call of the
cleanup handler if the increment returned 1. -/
def raceSchedule (n : Nat) : List Action :=
  List.replicate n (.spawn .interrupt) ++ racePhase n ++ racePhase n

/-! ## Basic facts about schedules -/

theorem step_of_exited (s : State) (a : Action) (c : Int) (h : s.exited = some c) :
    step s a = s := by
  simp [step, h]

theorem exec_of_exited (s : State) (acts : List Action) (c : Int)
    (h : s.exited = some c) : exec s acts = s := by
  induction acts with
  | nil => rfl
  | cons a as ih =>
    show exec (step s a) as = s
    rw [step_of_exited s a c h]
    exact ih

theorem stepSeq_of_exited (s : State) (a : SeqAction) (c : Int)
    (h : s.exited = some c) : stepSeq s a = s := by
  cases a with
  | signal k => exact exec_of_exited s _ c h
  | finish tid => exact exec_of_exited s _ c h

theorem execSeq_of_exited (s : State) (acts : List SeqAction) (c : Int)
    (h : s.exited = some c) : execSeq s acts = s := by
  induction acts with
  | nil => rfl
  | cons a as ih =>
    show execSeq (stepSeq s a) as = s
    rw [stepSeq_of_exited s a c h]
    exact ih

theorem execSeq_snoc (s : State) (acts : List SeqAction) (a : SeqAction) :
    execSeq s (acts ++ [a]) = stepSeq (execSeq s acts) a := by
  simp [execSeq, List.foldl_append]

theorem signals_snoc (ks : List Monitored) (k : Monitored) :
    signals (ks ++ [k]) = dispatch (signals ks) k := by
  simp [signals, execSeq, List.foldl_append, stepSeq]

theorem signals_append (ks rest : List Monitored) :
    signals (ks ++ rest) = execSeq (signals ks) (rest.map SeqAction.signal) := by
  simp [signals, execSeq, List.foldl_append]

/-- The only write to the counter is the increment modulo `2^32`. -/
theorem step_counter (s : State) (a : Action) :
    (step s a).interruptCount = s.interruptCount ∨
      (step s a).interruptCount = (s.interruptCount + 1) % wrap := by
  unfold step
  split
  · exact Or.inl rfl
  · split
    · exact Or.inl rfl
    · split
      · unfold runTask
        split
        all_goals first
          | exact Or.inl rfl
          | (try dsimp only
             split <;> first
               | exact Or.inl rfl
               | exact Or.inr rfl
               | (split <;> exact Or.inl rfl))
      · exact Or.inl rfl
    · split
      · split <;> exact Or.inl rfl
      · exact Or.inl rfl

/-! ## Reachable states when events are dispatched one at a time -/

/-- Case analysis on a list of at most four signal kinds. -/
theorem short_cases (P : List Monitored → Prop) (h0 : P [])
    (h1 : ∀ a, P [a]) (h2 : ∀ a b, P [a, b]) (h3 : ∀ a b c, P [a, b, c])
    (h4 : ∀ a b c d, P [a, b, c, d]) :
    ∀ ks : List Monitored, ks.length ≤ 4 → P ks := by
  intro ks h
  match ks, h with
  | [], _ => exact h0
  | [a], _ => exact h1 a
  | [a, b], _ => exact h2 a b
  | [a, b, c], _ => exact h3 a b c
  | [a, b, c, d], _ => exact h4 a b c d
  | _ :: _ :: _ :: _ :: _ :: _, h => simp at h

/-- Case analysis on a list of at most three signal kinds. -/
theorem short_cases3 (P : List Monitored → Prop) (h0 : P [])
    (h1 : ∀ a, P [a]) (h2 : ∀ a b, P [a, b]) (h3 : ∀ a b c, P [a, b, c]) :
    ∀ ks : List Monitored, ks.length ≤ 3 → P ks := by
  intro ks h
  match ks, h with
  | [], _ => exact h0
  | [a], _ => exact h1 a
  | [a, b], _ => exact h2 a b
  | [a, b, c], _ => exact h3 a b c
  | _ :: _ :: _ :: _ :: _, h => simp at h

/-- Only the first goroutine can be inside the cleanup handler: letting the
cleanup of any other goroutine "return" changes nothing. -/
theorem finish_succ_signals (ks : List Monitored) (h : ks.length ≤ 4) (n : Nat) :
    finish (signals ks) (n + 1) = signals ks := by
  revert n
  refine short_cases (fun ks => ∀ n, finish (signals ks) (n + 1) = signals ks)
    ?_ ?_ ?_ ?_ ?_ ks h
  · intro n; rfl
  · intro a n; cases a <;> rfl
  · intro a b n
    cases a <;> cases b <;> rcases n with _ | n <;> rfl
  · intro a b c n
    cases a <;> cases b <;> cases c <;> rcases n with _ | _ | n <;> rfl
  · intro a b c d n
    cases a <;> cases b <;> cases c <;> cases d <;> rfl

/-- After four signals the process has exited. -/
theorem signals_four_exited (a b c d : Monitored) :
    (signals [a, b, c, d]).exited = some (128 + d.sig) := by
  cases a <;> cases b <;> cases c <;> cases d <;> rfl

/-- Once cleanup has returned the process has exited with code 0. -/
theorem finish_signals_exited (ks : List Monitored) (h : ks.length ≤ 3)
    (hne : ks ≠ []) : (finish (signals ks) 0).exited = some 0 := by
  have h4 : ks.length ≤ 4 := by omega
  revert hne h
  refine short_cases
    (fun ks => ks.length ≤ 3 → ks ≠ [] → (finish (signals ks) 0).exited = some 0)
    ?_ ?_ ?_ ?_ ?_ ks h4
  · intro _ hne; exact absurd rfl hne
  · intro a _ _; cases a <;> rfl
  · intro a b _ _; cases a <;> cases b <;> rfl
  · intro a b c _ _; cases a <;> cases b <;> cases c <;> rfl
  · intro a b c d h; simp at h

/-- One step of a non-overlapping schedule from a state reached by signals
only: nothing changes, or the cleanup of the first goroutine returns, or one
more signal is dispatched. -/
theorem stepSeq_signals (ks : List Monitored) (h : ks.length ≤ 4) (a : SeqAction) :
    stepSeq (signals ks) a = signals ks ∨
    (ks.length ≤ 3 ∧ ks ≠ [] ∧ stepSeq (signals ks) a = finish (signals ks) 0) ∨
    (ks.length ≤ 3 ∧ ∃ k, stepSeq (signals ks) a = signals (ks ++ [k])) := by
  cases a with
  | signal k =>
    by_cases h4 : ks.length ≤ 3
    · right; right
      exact ⟨h4, k, (signals_snoc ks k).symm⟩
    · left
      have h5 : ks.length = 4 := by omega
      match ks, h5 with
      | [a, b, c, d], _ =>
        exact stepSeq_of_exited _ _ _ (signals_four_exited a b c d)
  | finish tid =>
    rcases tid with _ | n
    · by_cases h4 : ks.length ≤ 3
      · by_cases hne : ks = []
        · left; subst hne; rfl
        · right; left; exact ⟨h4, hne, rfl⟩
      · left
        have h5 : ks.length = 4 := by omega
        match ks, h5 with
        | [a, b, c, d], _ =>
          exact stepSeq_of_exited _ _ _ (signals_four_exited a b c d)
    · left; exact finish_succ_signals ks h n

theorem stepSeq_signals_four (ks : List Monitored) (h : ks.length = 4) (a : SeqAction) :
    stepSeq (signals ks) a = signals ks := by
  match ks, h with
  | [a, b, c, d], _ => exact stepSeq_of_exited _ _ _ (signals_four_exited a b c d)

/-- Every state reached by a non-overlapping schedule is the state after at
most four signals, possibly followed by the return of the first cleanup. -/
theorem execSeq_canon (acts : List SeqAction) :
    ∃ ks : List Monitored, ks.length ≤ 4 ∧
      (execSeq init acts = signals ks ∨
        (ks.length ≤ 3 ∧ ks ≠ [] ∧ execSeq init acts = finish (signals ks) 0)) := by
  induction acts using List.reverseRecOn with
  | nil => exact ⟨[], by simp, Or.inl rfl⟩
  | append_singleton acts a ih =>
    obtain ⟨ks, hlen, hs | ⟨h3, hne, hs⟩⟩ := ih
    · rw [execSeq_snoc, hs]
      rcases stepSeq_signals ks hlen a with h | ⟨h3, hne, h⟩ | ⟨h3, k, h⟩
      · exact ⟨ks, hlen, Or.inl h⟩
      · exact ⟨ks, hlen, Or.inr ⟨h3, hne, h⟩⟩
      · exact ⟨ks ++ [k], by simp; omega, Or.inl h⟩
    · rw [execSeq_snoc, hs]
      refine ⟨ks, hlen, Or.inr ⟨h3, hne, ?_⟩⟩
      exact stepSeq_of_exited _ _ _ (finish_signals_exited ks h3 hne)

/-- Induction principle for properties of the states reached by
non-overlapping schedules. -/
theorem execSeq_ind (P : State → Prop)
    (hsig : ∀ ks : List Monitored, ks.length ≤ 4 → P (signals ks))
    (hfin : ∀ ks : List Monitored, ks.length ≤ 3 → P (finish (signals ks) 0))
    (acts : List SeqAction) : P (execSeq init acts) := by
  obtain ⟨ks, hlen, hs | ⟨h3, _, hs⟩⟩ := execSeq_canon acts
  · rw [hs]; exact hsig ks hlen
  · rw [hs]; exact hfin ks h3

/-- Induction principle for properties of one step of a non-overlapping
schedule. -/
theorem stepSeq_ind (Q : State → State → Prop) (hrefl : ∀ s, Q s s)
    (hsig : ∀ ks : List Monitored, ks.length ≤ 3 → ∀ k : Monitored,
      Q (signals ks) (signals (ks ++ [k])))
    (hfin : ∀ ks : List Monitored, ks.length ≤ 3 →
      Q (signals ks) (finish (signals ks) 0))
    (acts : List SeqAction) (a : SeqAction) :
    Q (execSeq init acts) (stepSeq (execSeq init acts) a) := by
  obtain ⟨ks, hlen, hs | ⟨h3, hne, hs⟩⟩ := execSeq_canon acts
  · rw [hs]
    rcases stepSeq_signals ks hlen a with h | ⟨h3, _, h⟩ | ⟨h3, k, h⟩
    · rw [h]; exact hrefl _
    · rw [h]; exact hfin ks h3
    · rw [h]; exact hsig ks h3 k
  · rw [hs, stepSeq_of_exited _ _ _ (finish_signals_exited ks h3 hne)]
    exact hrefl _

theorem mem_cleanupCallers (tr : List Event) (tid : Nat) :
    tid ∈ cleanupCallers tr ↔ Event.cleanupCall tid ∈ tr := by
  simp only [cleanupCallers, List.mem_filterMap]
  constructor
  · rintro ⟨e, he, h⟩
    cases e <;> simp at h
    subst h; exact he
  · intro h; exact ⟨_, h, rfl⟩

theorem mem_addEvents (tr : List Event) (tid v : Nat) (h : Event.add tid v ∈ tr) :
    (tid, v) ∈ addEvents tr := by
  simp only [addEvents, List.mem_filterMap]
  exact ⟨_, h, rfl⟩

/-- Decidable form of the at-most-once property, checked on every reachable
state of a non-overlapping schedule. -/
theorem cleanup_once_aux (acts : List SeqAction) :
    cleanupCalls (execSeq init acts).trace ≤ 1 ∧
    ∀ tid ∈ cleanupCallers (execSeq init acts).trace,
      tid = 0 ∧ Event.add tid 1 ∈ (execSeq init acts).trace := by
  refine execSeq_ind
    (fun s => cleanupCalls s.trace ≤ 1 ∧
      ∀ tid ∈ cleanupCallers s.trace, tid = 0 ∧ Event.add tid 1 ∈ s.trace)
    ?_ ?_ acts
  · refine short_cases _ ?_ ?_ ?_ ?_ ?_
    · decide
    · intro a; cases a <;> decide
    · intro a b; cases a <;> cases b <;> decide
    · intro a b c; cases a <;> cases b <;> cases c <;> decide
    · intro a b c d; cases a <;> cases b <;> cases c <;> cases d <;> decide
  · refine short_cases3 _ ?_ ?_ ?_ ?_
    · decide
    · intro a; cases a <;> decide
    · intro a b; cases a <;> cases b <;> decide
    · intro a b c; cases a <;> cases b <;> cases c <;> decide

/-- Decidable form of the bound on the counter, checked on every reachable
state of a non-overlapping schedule. -/
theorem counter_bound_aux (acts : List SeqAction) (k : Monitored) :
    (execSeq init acts).interruptCount ≤ 3 ∧
    ((execSeq init acts).exited = none →
      (execSeq init acts).interruptCount = min 3 (execSeq init acts).tasks.length) ∧
    (∀ p ∈ addEvents (execSeq init acts).trace, p.2 = p.1 + 1 ∧ p.2 ≤ 3) ∧
    ((execSeq init acts).interruptCount = 3 → (execSeq init acts).exited = none →
      (dispatch (execSeq init acts) k).exited = some (128 + k.sig) ∧
      (dispatch (execSeq init acts) k).interruptCount = 3 ∧
      (dispatch (execSeq init acts) k).trace = (execSeq init acts).trace ++
        [.info (execSeq init acts).tasks.length (.processing k.sig),
         .load (execSeq init acts).tasks.length 3,
         .info (execSeq init acts).tasks.length .forcing,
         .exit (execSeq init acts).tasks.length (128 + k.sig)]) := by
  refine execSeq_ind
    (fun s => s.interruptCount ≤ 3 ∧
      (s.exited = none → s.interruptCount = min 3 s.tasks.length) ∧
      (∀ p ∈ addEvents s.trace, p.2 = p.1 + 1 ∧ p.2 ≤ 3) ∧
      (s.interruptCount = 3 → s.exited = none →
        (dispatch s k).exited = some (128 + k.sig) ∧
        (dispatch s k).interruptCount = 3 ∧
        (dispatch s k).trace = s.trace ++
          [.info s.tasks.length (.processing k.sig), .load s.tasks.length 3,
           .info s.tasks.length .forcing, .exit s.tasks.length (128 + k.sig)]))
    ?_ ?_ acts
  · refine short_cases _ ?_ ?_ ?_ ?_ ?_
    · cases k <;> decide
    · intro a; cases a <;> cases k <;> decide
    · intro a b; cases a <;> cases b <;> cases k <;> decide
    · intro a b c; cases a <;> cases b <;> cases c <;> cases k <;> decide
    · intro a b c d; cases a <;> cases b <;> cases c <;> cases d <;> cases k <;> decide
  · refine short_cases3 _ ?_ ?_ ?_ ?_
    · cases k <;> decide
    · intro a; cases a <;> cases k <;> decide
    · intro a b; cases a <;> cases b <;> cases k <;> decide
    · intro a b c; cases a <;> cases b <;> cases c <;> cases k <;> decide

theorem shape_signals (ks : List Monitored) (h : ks.length ≤ 4) :
    (signals ks).shape = signals (List.replicate ks.length .interrupt) := by
  revert ks
  refine short_cases _ ?_ ?_ ?_ ?_ ?_
  · rfl
  · intro a; cases a <;> rfl
  · intro a b; cases a <;> cases b <;> rfl
  · intro a b c; cases a <;> cases b <;> cases c <;> rfl
  · intro a b c d; cases a <;> cases b <;> cases c <;> cases d <;> rfl

theorem shape_finish (ks : List Monitored) (h : ks.length ≤ 3) :
    (finish (signals ks) 0).shape
      = finish (signals (List.replicate ks.length .interrupt)) 0 := by
  revert ks
  refine short_cases3 _ ?_ ?_ ?_ ?_
  · rfl
  · intro a; cases a <;> rfl
  · intro a b; cases a <;> cases b <;> rfl
  · intro a b c; cases a <;> cases b <;> cases c <;> rfl

/-- Two schedules that differ only in the kinds of their signals pass through
states built from equally many signals. -/
theorem execSeq_same_shape (acts1 : List SeqAction) :
    ∀ (acts2 : List SeqAction) (s1 s2 : State),
      acts1.map SeqAction.shape = acts2.map SeqAction.shape →
      (∃ ks1 ks2 : List Monitored, ks1.length = ks2.length ∧ ks1.length ≤ 4 ∧
        ((s1 = signals ks1 ∧ s2 = signals ks2) ∨
          (ks1.length ≤ 3 ∧ ks1 ≠ [] ∧
            s1 = finish (signals ks1) 0 ∧ s2 = finish (signals ks2) 0))) →
      ∃ ks1 ks2 : List Monitored, ks1.length = ks2.length ∧ ks1.length ≤ 4 ∧
        ((execSeq s1 acts1 = signals ks1 ∧ execSeq s2 acts2 = signals ks2) ∨
          (ks1.length ≤ 3 ∧ ks1 ≠ [] ∧
            execSeq s1 acts1 = finish (signals ks1) 0 ∧
            execSeq s2 acts2 = finish (signals ks2) 0)) := by
  induction acts1 with
  | nil =>
    intro acts2 s1 s2 hmap hR
    cases acts2 with
    | nil => exact hR
    | cons b bs => simp at hmap
  | cons a as ih =>
    intro acts2 s1 s2 hmap hR
    cases acts2 with
    | nil => simp at hmap
    | cons b bs =>
      simp only [List.map_cons, List.cons.injEq] at hmap
      obtain ⟨hab, hrest⟩ := hmap
      refine ih bs (stepSeq s1 a) (stepSeq s2 b) hrest ?_
      obtain ⟨ks1, ks2, hlen, h4, ⟨e1, e2⟩ | ⟨h3, hne, e1, e2⟩⟩ := hR
      · subst e1 e2
        cases a with
        | signal k1 =>
          cases b with
          | finish t => simp [SeqAction.shape] at hab
          | signal k2 =>
            by_cases h3 : ks1.length ≤ 3
            · refine ⟨ks1 ++ [k1], ks2 ++ [k2], by simp [hlen], by simp; omega, Or.inl ?_⟩
              exact ⟨(signals_snoc ks1 k1).symm, (signals_snoc ks2 k2).symm⟩
            · refine ⟨ks1, ks2, hlen, h4, Or.inl ?_⟩
              exact ⟨stepSeq_signals_four ks1 (by omega) _,
                stepSeq_signals_four ks2 (by omega) _⟩
        | finish t1 =>
          cases b with
          | signal k2 => simp [SeqAction.shape] at hab
          | finish t2 =>
            have ht : t1 = t2 := by simpa [SeqAction.shape] using hab
            subst ht
            rcases t1 with _ | n
            · by_cases h3 : ks1.length ≤ 3
              · by_cases hne : ks1 = []
                · subst hne
                  have h2 : ks2 = [] := List.length_eq_zero.mp (by simpa using hlen.symm)
                  subst h2
                  exact ⟨[], [], rfl, by simp, Or.inl ⟨rfl, rfl⟩⟩
                · exact ⟨ks1, ks2, hlen, h4, Or.inr ⟨h3, hne, rfl, rfl⟩⟩
              · refine ⟨ks1, ks2, hlen, h4, Or.inl ?_⟩
                exact ⟨stepSeq_signals_four ks1 (by omega) _,
                  stepSeq_signals_four ks2 (by omega) _⟩
            · refine ⟨ks1, ks2, hlen, h4, Or.inl ?_⟩
              exact ⟨finish_succ_signals ks1 h4 n, finish_succ_signals ks2 (by omega) n⟩
      · subst e1 e2
        have hne2 : ks2 ≠ [] := by
          intro h; subst h; exact hne (List.length_eq_zero.mp (by simpa using hlen))
        refine ⟨ks1, ks2, hlen, h4, Or.inr ⟨h3, hne, ?_, ?_⟩⟩
        · exact stepSeq_of_exited _ _ _ (finish_signals_exited ks1 h3 hne)
        · exact stepSeq_of_exited _ _ _ (finish_signals_exited ks2 (by omega) hne2)

/-! ## A single goroutine -/

theorem solo_step_run (k : Monitored) (i tid : Nat) (h : i ≤ 4) :
    step (solo k i) (.run tid) = solo k i ∨
      (i < 4 ∧ step (solo k i) (.run tid) = solo k (i + 1)) := by
  match i, h with
  | 0, _ => cases k <;> rcases tid with _ | n <;> first | (left; rfl) | (right; exact ⟨by omega, rfl⟩)
  | 1, _ => cases k <;> rcases tid with _ | n <;> first | (left; rfl) | (right; exact ⟨by omega, rfl⟩)
  | 2, _ => cases k <;> rcases tid with _ | n <;> first | (left; rfl) | (right; exact ⟨by omega, rfl⟩)
  | 3, _ => cases k <;> rcases tid with _ | n <;> first | (left; rfl) | (right; exact ⟨by omega, rfl⟩)
  | 4, _ => cases k <;> rcases tid with _ | n <;> left <;> rfl

theorem solo_step_return (k : Monitored) (i tid : Nat) (h : i ≤ 6) :
    step (solo k i) (.cleanupReturn tid) = solo k i ∨
      (i < 6 ∧ step (solo k i) (.cleanupReturn tid) = solo k (i + 1)) := by
  match i, h with
  | 0, _ => cases k <;> rcases tid with _ | n <;> left <;> rfl
  | 1, _ => cases k <;> rcases tid with _ | n <;> left <;> rfl
  | 2, _ => cases k <;> rcases tid with _ | n <;> left <;> rfl
  | 3, _ => cases k <;> rcases tid with _ | n <;> left <;> rfl
  | 4, _ => cases k <;> rcases tid with _ | n <;> first | (left; rfl) | (right; exact ⟨by omega, rfl⟩)
  | 5, _ => cases k <;> rcases tid with _ | n <;> left <;> rfl
  | 6, _ => cases k <;> rcases tid with _ | n <;> left <;> rfl

theorem solo_step_run_late (k : Monitored) (i tid : Nat) (h5 : 5 ≤ i) (h : i ≤ 6) :
    step (solo k i) (.run tid) = solo k i ∨
      (i < 6 ∧ step (solo k i) (.run tid) = solo k (i + 1)) := by
  match i, h5, h with
  | 5, _, _ => cases k <;> rcases tid with _ | n <;> first | (left; rfl) | (right; exact ⟨by omega, rfl⟩)
  | 6, _, _ => cases k <;> rcases tid with _ | n <;> left <;> rfl

/-- Without a further signal, a lone goroutine only ever advances along its
own schedule. -/
theorem solo_exec (k : Monitored) (acts : List Action) :
    ∀ i, i ≤ 6 → ∃ j, j ≤ 6 ∧
      exec (solo k i)
        (acts.filter fun a => match a with
          | .spawn _ => false
          | _ => true) = solo k j := by
  induction acts with
  | nil => intro i hi; exact ⟨i, hi, rfl⟩
  | cons a as ih =>
    intro i hi
    cases a with
    | spawn k2 => simpa using ih i hi
    | run tid =>
      have hstep : step (solo k i) (.run tid) = solo k i ∨
          (i < 6 ∧ step (solo k i) (.run tid) = solo k (i + 1)) := by
        by_cases h4 : i ≤ 4
        · rcases solo_step_run k i tid h4 with h | ⟨h1, h2⟩
          · exact Or.inl h
          · exact Or.inr ⟨by omega, h2⟩
        · exact solo_step_run_late k i tid (by omega) hi
      rcases hstep with h | ⟨h1, h2⟩
      · obtain ⟨j, hj, e⟩ := ih i hi
        exact ⟨j, hj, by simpa [exec, h] using e⟩
      · obtain ⟨j, hj, e⟩ := ih (i + 1) (by omega)
        exact ⟨j, hj, by simpa [exec, h2] using e⟩
    | cleanupReturn tid =>
      rcases solo_step_return k i tid hi with h | ⟨h1, h2⟩
      · obtain ⟨j, hj, e⟩ := ih i hi
        exact ⟨j, hj, by simpa [exec, h] using e⟩
      · obtain ⟨j, hj, e⟩ := ih (i + 1) (by omega)
        exact ⟨j, hj, by simpa [exec, h2] using e⟩

/-- While the cleanup handler does not return, a lone goroutine gets no
further than the call of the cleanup handler. -/
theorem solo_exec_run (k : Monitored) (tids : List Nat) :
    ∀ i, i ≤ 4 → ∃ j, j ≤ 4 ∧ exec (solo k i) (tids.map Action.run) = solo k j := by
  induction tids with
  | nil => intro i hi; exact ⟨i, hi, rfl⟩
  | cons tid tids ih =>
    intro i hi
    rcases solo_step_run k i tid hi with h | ⟨h1, h2⟩
    · obtain ⟨j, hj, e⟩ := ih i hi
      exact ⟨j, hj, by simpa [exec, h] using e⟩
    · obtain ⟨j, hj, e⟩ := ih (i + 1) (by omega)
      exact ⟨j, hj, by simpa [exec, h2] using e⟩

theorem solo_trace (k : Monitored) (j : Nat) (h : j ≤ 6) :
    (solo k j).trace = (soloTrace k).take j ∧
      ((solo k j).exited = none ∨ (j = 6 ∧ (solo k j).exited = some 0)) := by
  match j, h with
  | 0, _ => cases k <;> exact ⟨rfl, Or.inl rfl⟩
  | 1, _ => cases k <;> exact ⟨rfl, Or.inl rfl⟩
  | 2, _ => cases k <;> exact ⟨rfl, Or.inl rfl⟩
  | 3, _ => cases k <;> exact ⟨rfl, Or.inl rfl⟩
  | 4, _ => cases k <;> exact ⟨rfl, Or.inl rfl⟩
  | 5, _ => cases k <;> exact ⟨rfl, Or.inl rfl⟩
  | 6, _ => cases k <;> exact ⟨rfl, Or.inr ⟨rfl, rfl⟩⟩

theorem solo_alive (k : Monitored) (j : Nat) (h : j ≤ 4) : (solo k j).exited = none := by
  match j, h with
  | 0, _ => cases k <;> rfl
  | 1, _ => cases k <;> rfl
  | 2, _ => cases k <;> rfl
  | 3, _ => cases k <;> rfl
  | 4, _ => cases k <;> rfl

/-! ## Arbitrary interleavings: the invariant -/

theorem set_same (l : List Task) (i : Nat) (t : Task) (h : l[i]? = some t) :
    l.set i t = l := by
  induction l generalizing i with
  | nil => rfl
  | cons x xs ih =>
    cases i with
    | zero => simp at h; simp [h]
    | succ n => simp at h; simp [ih n h]

/-- Every scheduling step changes nothing, starts a goroutine, or is one
transition of one goroutine. -/
theorem step_cases (s : State) (a : Action) :
    step s a = s ∨
    (∃ k : Monitored, s.exited = none ∧
      step s a = { s with tasks := s.tasks ++ [⟨k.sig, .start⟩] }) ∨
    (∃ tid t pc2 evs c2 ex, s.exited = none ∧ s.tasks[tid]? = some t ∧
      TaskStep s.interruptCount tid t.sig t.pc pc2 evs c2 ex ∧
      step s a = ⟨c2, s.tasks.set tid ⟨t.sig, pc2⟩, ex, s.trace ++ evs⟩) := by
  cases hex : s.exited with
  | some c => left; simp [step, hex]
  | none =>
    cases a with
    | spawn k => right; left; exact ⟨k, rfl, by simp [step, hex]⟩
    | run tid =>
      cases hget : s.tasks[tid]? with
      | none => left; simp [step, hex, hget]
      | some t =>
        obtain ⟨sig, pc⟩ := t
        have hstep : step s (.run tid) = runTask s tid ⟨sig, pc⟩ := by
          simp [step, hex, hget]
        rw [hstep]
        cases pc with
        | start =>
          right; right
          exact ⟨tid, _, _, _, _, _, rfl, hget, TaskStep.log, by
            simp [runTask, State.goto, hex]⟩
        | atSwitch =>
          right; right
          by_cases hm : sig = Interrupt ∨ sig = SIGTERM
          · by_cases hc : s.interruptCount < 3
            · exact ⟨tid, _, _, _, _, _, rfl, hget, TaskStep.loadLow hm hc, by
                simp [runTask, State.goto, hex, hm, hc]⟩
            · exact ⟨tid, _, _, _, _, _, rfl, hget, TaskStep.loadHigh hm hc, by
                simp [runTask, State.goto, hex, hm, hc]⟩
          · exact ⟨tid, _, _, _, _, _, rfl, hget, TaskStep.other hm, by
              simp [runTask, State.goto, hex, hm]⟩
        | atAdd =>
          right; right
          by_cases hv : (s.interruptCount + 1) % wrap = 1
          · exact ⟨tid, _, _, _, _, _, rfl, hget, TaskStep.addFirst hv, by
              simp [runTask, State.goto, hex, hv]⟩
          · exact ⟨tid, _, _, _, _, _, rfl, hget, TaskStep.addLater hv, by
              simp [runTask, State.goto, hex, hv]⟩
        | atCleanup =>
          right; right
          exact ⟨tid, _, _, _, _, _, rfl, hget, TaskStep.call, by
            simp [runTask, State.goto, hex]⟩
        | inCleanup => left; rfl
        | atExit0 =>
          right; right
          exact ⟨tid, _, _, _, _, _, rfl, hget, TaskStep.exit0, by
            simp [runTask, set_same _ _ _ hget]⟩
        | atForce =>
          right; right
          exact ⟨tid, _, _, _, _, _, rfl, hget, TaskStep.force, by
            simp [runTask, State.goto, hex]⟩
        | atExit128 =>
          right; right
          exact ⟨tid, _, _, _, _, _, rfl, hget, TaskStep.exit128, by
            simp [runTask, set_same _ _ _ hget]⟩
        | done => left; rfl
    | cleanupReturn tid =>
      cases hget : s.tasks[tid]? with
      | none => left; simp [step, hex, hget]
      | some t =>
        obtain ⟨sig, pc⟩ := t
        by_cases hpc : pc = .inCleanup
        · subst hpc
          right; right
          exact ⟨tid, _, _, _, _, _, rfl, hget, TaskStep.ret, by
            simp [step, State.goto, hex, hget]⟩
        · left; simp [step, hex, hget, hpc]

theorem lookup_set (l : List Task) (i j : Nat) (t u : Task)
    (h : (l.set i t)[j]? = some u) : (j = i ∧ u = t) ∨ (j ≠ i ∧ l[j]? = some u) := by
  rw [List.getElem?_set] at h
  by_cases hij : i = j
  · subst hij
    left
    by_cases hlt : i < l.length
    · simp [hlt] at h; exact ⟨rfl, h.symm⟩
    · simp [hlt] at h
  · right
    rw [if_neg hij] at h
    exact ⟨fun e => hij e.symm, h⟩

theorem lookup_set_self (l : List Task) (i : Nat) (t u : Task) (h : l[i]? = some t) :
    (l.set i u)[i]? = some u := by
  have hlt : i < l.length := by
    by_contra hge
    rw [List.getElem?_eq_none (by omega)] at h
    cases h
  simp [List.getElem?_set, hlt]

theorem lookup_snoc (l : List Task) (n : Task) (j : Nat) (u : Task)
    (h : (l ++ [n])[j]? = some u) : l[j]? = some u ∨ (j = l.length ∧ u = n) := by
  rw [List.getElem?_append] at h
  by_cases hlt : j < l.length
  · left; simpa [hlt] using h
  · right
    rw [if_neg hlt] at h
    have hj : j - l.length = 0 := by
      by_contra hne
      obtain ⟨m, hm⟩ : ∃ m, j - l.length = m + 1 := ⟨j - l.length - 1, by omega⟩
      rw [hm] at h
      simp at h
    rw [hj] at h
    simp at h
    exact ⟨by omega, h.symm⟩

theorem countP_set_of (p : Task → Bool) (l : List Task) (i : Nat) (t u : Task)
    (h : l[i]? = some t) :
    (l.set i u).countP p + (if p t then 1 else 0)
      = l.countP p + (if p u then 1 else 0) := by
  induction l generalizing i with
  | nil => simp at h
  | cons x xs ih =>
    cases i with
    | zero =>
      simp at h
      subst h
      simp only [List.set_cons_zero, List.countP_cons]
      omega
    | succ n =>
      simp at h
      have := ih n h
      simp only [List.set_cons_succ, List.countP_cons]
      omega

theorem not_mem_of_exits_zero (tr : List Event) (h : exits tr = 0) (tid : Nat)
    (code : Int) : Event.exit tid code ∉ tr := by
  intro hmem
  have := (List.countP_eq_zero.mp h) _ hmem
  simp at this

theorem adds_append (tr evs : List Event) : adds (tr ++ evs) = adds tr + adds evs := by
  simp [adds, List.countP_append]

theorem addsOne_append (tr evs : List Event) :
    addsOne (tr ++ evs) = addsOne tr + addsOne evs := by
  simp [addsOne, List.countP_append]

theorem cleanupCalls_append (tr evs : List Event) :
    cleanupCalls (tr ++ evs) = cleanupCalls tr + cleanupCalls evs := by
  simp [cleanupCalls, List.countP_append]

theorem exits_append (tr evs : List Event) : exits (tr ++ evs) = exits tr + exits evs := by
  simp [exits, List.countP_append]

/-- What one transition of a goroutine does to the observations. -/
theorem TaskStep.effect {c tid : Nat} {sig : Signal} {pc pc2 : PC} {evs : List Event}
    {c2 : Nat} {ex : Option Int} (h : TaskStep c tid sig pc pc2 evs c2 ex) :
    ((pc = .atAdd ∧ adds evs = 1 ∧ c2 = (c + 1) % wrap ∧ pc2.beforeAdd = false ∧
        addsOne evs = (if c2 = 1 then 1 else 0) ∧
        (c2 = 1 ↔ pc2 = .atCleanup)) ∨
      (pc ≠ .atAdd ∧ adds evs = 0 ∧ c2 = c ∧ addsOne evs = 0 ∧ pc2 ≠ .atCleanup ∧
        (pc.beforeAdd = false → pc2.beforeAdd = false))) ∧
    ((pc = .atCleanup ∧ cleanupCalls evs = 1) ∨
      (pc ≠ .atCleanup ∧ cleanupCalls evs = 0)) ∧
    ((ex = none ∧ exits evs = 0) ∨ (ex ≠ none ∧ exits evs = 1)) := by
  cases h <;>
    simp [adds, addsOne, cleanupCalls, exits, PC.beforeAdd, *]

theorem Inv.of_init : Inv init := by
  constructor <;> simp [Trap.init, adds, addsOne, cleanupCalls, exits, wrap]

theorem Inv.after_spawn {s : State} (h : Inv s) (k : Monitored) :
    Inv { s with tasks := s.tasks ++ [⟨k.sig, .start⟩] } := by
  constructor
  · intro tid t ht
    rcases lookup_snoc _ _ _ _ ht with h1 | ⟨_, h2⟩
    · exact h.monitored tid t h1
    · subst h2; cases k
      · exact Or.inl rfl
      · exact Or.inr rfl
  · exact h.counter
  · exact h.ones
  · have := h.addsLe
    have e : List.countP (fun t : Task => t.pc.beforeAdd) [⟨k.sig, PC.start⟩] = 1 := rfl
    simp only [List.countP_append, List.length_append, List.length_singleton, e]
    omega
  · have := h.calls
    have e : List.countP (fun t : Task => decide (t.pc = .atCleanup))
        [⟨k.sig, PC.start⟩] = 0 := rfl
    simp only [List.countP_append, e]
    exact this
  · intro tid t ht hp
    rcases lookup_snoc _ _ _ _ ht with h1 | ⟨_, h2⟩
    · exact h.past tid t h1 hp
    · subst h2; simp [PC.beforeAdd] at hp
  · intro tid t ht hp
    rcases lookup_snoc _ _ _ _ ht with h1 | ⟨_, h2⟩
    · exact h.gotOne tid t h1 hp
    · subst h2; cases hp
  · exact h.callers
  · intro tid t ht hp
    rcases lookup_snoc _ _ _ _ ht with h1 | ⟨_, h2⟩
    · exact h.inCleanup tid t h1 hp
    · subst h2; cases hp
  · intro tid t ht hp
    rcases lookup_snoc _ _ _ _ ht with h1 | ⟨_, h2⟩
    · exact h.atExit0 tid t h1 hp
    · subst h2; cases hp
  · exact h.alive
  · intro tid code hmem
    obtain ⟨h1, h2, t, h3, h4⟩ := h.exitEv tid code hmem
    refine ⟨h1, h2, t, ?_, h4⟩
    have hlt : tid < s.tasks.length := by
      by_contra hge
      rw [List.getElem?_eq_none (by omega)] at h3
      cases h3
    show (s.tasks ++ _)[tid]? = some t
    rw [List.getElem?_append_left hlt]
    exact h3

theorem Inv.after_local {s : State} (h : Inv s) (tid : Nat) (t : Task) (pc2 : PC)
    (evs : List Event) (c2 : Nat) (ex : Option Int) (hex : s.exited = none)
    (hget : s.tasks[tid]? = some t)
    (hrow : TaskStep s.interruptCount tid t.sig t.pc pc2 evs c2 ex) :
    Inv ⟨c2, s.tasks.set tid ⟨t.sig, pc2⟩, ex, s.trace ++ evs⟩ := by
  obtain ⟨sig, pc⟩ := t
  simp only at hrow
  have heff := hrow.effect
  have hcnt := h.counter
  have hone := h.ones
  constructor
  · -- monitored
    intro j u hu
    rcases lookup_set _ _ _ _ _ hu with ⟨_, rfl⟩ | ⟨_, h1⟩
    · exact h.monitored tid ⟨sig, pc⟩ hget
    · exact h.monitored j u h1
  · -- counter
    show c2 = adds (s.trace ++ evs) % wrap
    rw [adds_append]
    rcases heff.1 with ⟨_, ha, hc, _⟩ | ⟨_, ha, hc, _⟩
    · rw [ha, hc, hcnt]; simp only [wrap]; omega
    · rw [ha, hc, hcnt, Nat.add_zero]
  · -- ones
    show addsOne (s.trace ++ evs) = (adds (s.trace ++ evs) + (wrap - 1)) / wrap
    rw [adds_append, addsOne_append]
    rcases heff.1 with ⟨_, ha, hc, _, ho, _⟩ | ⟨_, ha, _, ho, _⟩
    · rw [ha, ho, hone, hc, hcnt]
      simp only [wrap]
      split <;> omega
    · rw [ha, ho, hone, Nat.add_zero, Nat.add_zero]
  · -- addsLe
    show adds (s.trace ++ evs) + (s.tasks.set tid ⟨sig, pc2⟩).countP _
      ≤ (s.tasks.set tid ⟨sig, pc2⟩).length
    have hc := countP_set_of (fun t : Task => t.pc.beforeAdd) s.tasks tid _ ⟨sig, pc2⟩ hget
    have hle := h.addsLe
    rw [adds_append, List.length_set]
    simp only at hc
    rcases heff.1 with ⟨hp, ha, _, hb, _⟩ | ⟨_, ha, _, _, _, hb⟩
    · subst hp
      have hA : PC.atAdd.beforeAdd = true := rfl
      simp [hb, hA] at hc
      omega
    · cases hb1 : pc.beforeAdd
      · simp [hb hb1, hb1] at hc
        omega
      · cases hb2 : pc2.beforeAdd
        · simp [hb1, hb2] at hc; omega
        · simp [hb1, hb2] at hc; omega
  · -- calls
    show cleanupCalls (s.trace ++ evs)
        + (s.tasks.set tid ⟨sig, pc2⟩).countP (fun t => decide (t.pc = .atCleanup))
      = addsOne (s.trace ++ evs)
    have hc := countP_set_of (fun t : Task => decide (t.pc = .atCleanup)) s.tasks tid _
      ⟨sig, pc2⟩ hget
    have hcl := h.calls
    rw [cleanupCalls_append, addsOne_append]
    simp only [decide_eq_true_eq] at hc
    rcases heff.1 with ⟨hp, _, _, _, ho, hiff⟩ | ⟨hp, _, _, ho, hp2, _⟩
    · subst hp
      rcases heff.2.1 with ⟨hq, _⟩ | ⟨_, hk⟩
      · cases hq
      · rw [hk, ho]
        by_cases h1 : c2 = 1
        · have := hiff.mp h1
          subst this
          simp at hc
          simp [h1]
          omega
        · have hne : pc2 ≠ .atCleanup := fun e => h1 (hiff.mpr e)
          simp [hne] at hc
          simp [h1]
          omega
    · rcases heff.2.1 with ⟨hq, hk⟩ | ⟨hq, hk⟩
      · subst hq
        simp [hp2] at hc
        rw [hk, ho]; omega
      · simp [hp2, hq] at hc
        rw [hk, ho]; omega
  · -- past
    intro j u hu hp
    show 1 ≤ adds (s.trace ++ evs)
    rw [adds_append]
    rcases lookup_set _ _ _ _ _ hu with ⟨_, rfl⟩ | ⟨_, h1⟩
    · simp only at hp
      rcases heff.1 with ⟨_, ha, _⟩ | ⟨_, _, _, _, _, _⟩
      · omega
      · have : 1 ≤ adds s.trace := by
          cases hrow with
          | log => simp [PC.beforeAdd] at hp
          | loadLow _ _ => simp [PC.beforeAdd] at hp
          | loadHigh hm hc =>
            rw [hcnt] at hc
            by_contra h0
            have : adds s.trace = 0 := by omega
            rw [this, Nat.zero_mod] at hc
            omega
          | other hm => exact absurd (h.monitored tid _ hget) hm
          | call => exact h.past tid _ hget rfl
          | ret => exact h.past tid _ hget rfl
          | exit0 => exact h.past tid _ hget rfl
          | force => exact h.past tid _ hget rfl
          | exit128 => exact h.past tid _ hget rfl
          | addFirst _ => exact absurd rfl (by assumption)
          | addLater _ => exact absurd rfl (by assumption)
        omega
    · have := h.past j u h1 hp
      omega
  · -- gotOne
    intro j u hu hp
    show Event.add j 1 ∈ s.trace ++ evs
    rcases lookup_set _ _ _ _ _ hu with ⟨hj, rfl⟩ | ⟨_, h1⟩
    · simp only at hp
      subst hp hj
      cases hrow with
      | addFirst hv => simp [hv]
    · exact List.mem_append_left _ (h.gotOne j u h1 hp)
  · -- callers
    intro x hx
    show Event.add x 1 ∈ s.trace ++ evs
    rcases List.mem_append.mp hx with hl | hr
    · exact List.mem_append_left _ (h.callers x hl)
    · cases hrow <;> simp at hr
      subst hr
      exact List.mem_append_left _ (h.gotOne x _ hget rfl)
  · -- inCleanup
    intro j u hu hp
    show Event.cleanupCall j ∈ s.trace ++ evs
    rcases lookup_set _ _ _ _ _ hu with ⟨hj, rfl⟩ | ⟨_, h1⟩
    · simp only at hp
      subst hp hj
      cases hrow with
      | call => simp
    · exact List.mem_append_left _ (h.inCleanup j u h1 hp)
  · -- atExit0
    intro j u hu hp
    show Event.cleanupCall j ∈ s.trace ++ evs ∧ Event.cleanupReturn j ∈ s.trace ++ evs
    rcases lookup_set _ _ _ _ _ hu with ⟨hj, rfl⟩ | ⟨_, h1⟩
    · simp only at hp
      subst hp hj
      cases hrow with
      | ret =>
        exact ⟨List.mem_append_left _ (h.inCleanup j _ hget rfl), by simp⟩
      | exit0 =>
        have := h.atExit0 j _ hget rfl
        exact ⟨List.mem_append_left _ this.1, List.mem_append_left _ this.2⟩
    · have := h.atExit0 j u h1 hp
      exact ⟨List.mem_append_left _ this.1, List.mem_append_left _ this.2⟩
  · -- alive
    intro hexn
    show exits (s.trace ++ evs) = 0
    rw [exits_append, h.alive hex]
    rcases heff.2.2 with ⟨_, he⟩ | ⟨hne, _⟩
    · rw [he]
    · exact absurd hexn hne
  · -- exitEv
    intro x code hmem
    show ex = some code ∧ exits (s.trace ++ evs) = 1 ∧
      ∃ u, (s.tasks.set tid ⟨sig, pc2⟩)[x]? = some u ∧
        ((code = 0 ∧ u.pc = .atExit0) ∨ (code = 128 + u.sig ∧ u.pc = .atExit128))
    rw [exits_append, h.alive hex]
    rcases List.mem_append.mp hmem with hl | hr
    · exact absurd hl (not_mem_of_exits_zero _ (h.alive hex) x code)
    · have hself := lookup_set_self s.tasks tid _ ⟨sig, pc2⟩ hget
      cases hrow <;> simp at hr
      · obtain ⟨hx, hcode⟩ := hr
        subst hx hcode
        exact ⟨rfl, by simp [exits], _, hself, Or.inl ⟨rfl, rfl⟩⟩
      · obtain ⟨hx, hcode⟩ := hr
        subst hx hcode
        exact ⟨rfl, by simp [exits], _, hself, Or.inr ⟨rfl, rfl⟩⟩

theorem Inv.after_step {s : State} (h : Inv s) (a : Action) : Inv (step s a) := by
  rcases step_cases s a with e | ⟨k, _, e⟩ | ⟨tid, t, pc2, evs, c2, ex, hex, hget, hrow, e⟩
  · rw [e]; exact h
  · rw [e]; exact h.after_spawn k
  · rw [e]; exact h.after_local tid t pc2 evs c2 ex hex hget hrow

theorem Inv.after_exec {s : State} (h : Inv s) (acts : List Action) : Inv (exec s acts) := by
  induction acts generalizing s with
  | nil => exact h
  | cons a as ih => exact ih (h.after_step a)

/-- The invariant holds in every state reachable from the initial one. -/
theorem inv_reachable (acts : List Action) : Inv (exec init acts) :=
  Inv.of_init.after_exec acts

theorem exists_exit_of_exits_pos (tr : List Event) (h : 0 < exits tr) :
    ∃ tid code, Event.exit tid code ∈ tr := by
  obtain ⟨e, he, hp⟩ := List.countP_pos_iff.mp h
  cases e <;> simp at hp
  exact ⟨_, _, he⟩

theorem eq_of_countP_le_one {α : Type} (p : α → Bool) (l : List α)
    (h : l.countP p ≤ 1) (a b : α) (ha : a ∈ l) (hb : b ∈ l) (pa : p a = true)
    (pb : p b = true) : a = b := by
  induction l with
  | nil => cases ha
  | cons x xs ih =>
    rw [List.countP_cons] at h
    by_cases px : p x = true
    · have h0 : xs.countP p = 0 := by rw [if_pos px] at h; omega
      have hnone := List.countP_eq_zero.mp h0
      rcases List.mem_cons.mp ha with rfl | ha2
      · rcases List.mem_cons.mp hb with rfl | hb2
        · rfl
        · exact absurd pb (hnone b hb2)
      · exact absurd pa (hnone a ha2)
    · rw [if_neg px, Nat.add_zero] at h
      rcases List.mem_cons.mp ha with rfl | ha2
      · exact absurd pa px
      · rcases List.mem_cons.mp hb with rfl | hb2
        · exact absurd pb px
        · exact ih h ha2 hb2

/-- Under any interleaving, as long as fewer than `2^32` goroutines have been
started, a step leaves the counter unchanged or adds exactly one to it. -/
theorem step_counter_no_wrap (acts : List Action) (b : Action)
    (hn : (exec init acts).tasks.length < wrap) :
    (step (exec init acts) b).interruptCount = (exec init acts).interruptCount ∨
      (step (exec init acts) b).interruptCount
        = (exec init acts).interruptCount + 1 := by
  have h := inv_reachable acts
  generalize exec init acts = s at h hn
  rcases step_cases s b with e | ⟨k, _, e⟩ | ⟨tid, t, pc2, evs, c2, ex, hex, hget, hrow, e⟩
  · rw [e]; exact Or.inl rfl
  · rw [e]; exact Or.inl rfl
  · rw [e]
    rcases hrow.effect.1 with ⟨hp, _, hc, _⟩ | ⟨_, _, hc, _⟩
    · right
      show c2 = s.interruptCount + 1
      have hpos : 0 < s.tasks.countP (fun t => t.pc.beforeAdd) :=
        List.countP_pos_iff.mpr ⟨t, List.getElem?_mem hget, by rw [hp]; rfl⟩
      have hle := h.addsLe
      have hcnt := h.counter
      rw [hc, hcnt]
      simp only [wrap] at hn ⊢
      omega
    · left; exact hc

/-! ## Many racing goroutines -/

theorem run_start (s : State) (i : Nat) (sig : Signal) (hex : s.exited = none)
    (hget : s.tasks[i]? = some ⟨sig, .start⟩) :
    step s (.run i) = { s with tasks := s.tasks.set i ⟨sig, .atSwitch⟩,
                               trace := s.trace ++ [.info i (.processing sig)] } := by
  simp [step, runTask, State.goto, hex, hget]

theorem run_load (s : State) (i : Nat) (hex : s.exited = none)
    (hget : s.tasks[i]? = some ⟨Interrupt, .atSwitch⟩) (hc : s.interruptCount < 3) :
    step s (.run i) = { s with tasks := s.tasks.set i ⟨Interrupt, .atAdd⟩,
                               trace := s.trace ++ [.load i s.interruptCount] } := by
  simp [step, runTask, State.goto, hex, hget, hc]

theorem run_add (s : State) (i : Nat) (sig : Signal) (hex : s.exited = none)
    (hget : s.tasks[i]? = some ⟨sig, .atAdd⟩) :
    step s (.run i) =
      ⟨(s.interruptCount + 1) % wrap,
        s.tasks.set i ⟨sig, if (s.interruptCount + 1) % wrap = 1 then .atCleanup else .done⟩,
        none, s.trace ++ [.add i ((s.interruptCount + 1) % wrap)]⟩ := by
  by_cases hv : (s.interruptCount + 1) % wrap = 1 <;>
    simp [step, runTask, State.goto, hex, hget, hv]

theorem run_call (s : State) (i : Nat) (sig : Signal) (hex : s.exited = none)
    (hget : s.tasks[i]? = some ⟨sig, .atCleanup⟩) :
    step s (.run i) = { s with tasks := s.tasks.set i ⟨sig, .inCleanup⟩,
                               trace := s.trace ++ [.cleanupCall i] } := by
  simp [step, runTask, State.goto, hex, hget]

theorem run_done (s : State) (i : Nat) (sig : Signal)
    (hget : s.tasks[i]? = some ⟨sig, .done⟩) : step s (.run i) = s := by
  cases hex : s.exited <;> simp [step, runTask, hex, hget]

theorem exec_spawns (n : Nat) (k : Monitored) :
    ∀ s : State, s.exited = none →
      exec s (List.replicate n (.spawn k))
        = { s with tasks := s.tasks ++ List.replicate n ⟨k.sig, .start⟩ } := by
  induction n with
  | zero => intro s _; simp [exec]
  | succ n ih =>
    intro s hex
    rw [List.replicate_succ]
    show exec (step s (.spawn k)) _ = _
    have hs : step s (.spawn k) = { s with tasks := s.tasks ++ [⟨k.sig, .start⟩] } := by
      simp [step, hex]
    rw [hs, ih ⟨s.interruptCount, s.tasks ++ [(⟨k.sig, .start⟩ : Task)], s.exited, s.trace⟩ hex]
    simp [List.replicate_succ]

/-- First phase of the race: every goroutine below `k` has loaded 0 and is
about to increment, the others have not started to run. -/
theorem race_loads (n : Nat) (s : State) (hex : s.exited = none)
    (hc : s.interruptCount = 0) (htr : s.trace = [])
    (ht : s.tasks = List.replicate n ⟨Interrupt, .start⟩) :
    ∀ k, k ≤ n →
      (exec s (racePhase k)).exited = none ∧
      (exec s (racePhase k)).interruptCount = 0 ∧
      adds (exec s (racePhase k)).trace = 0 ∧
      addsOne (exec s (racePhase k)).trace = 0 ∧
      cleanupCalls (exec s (racePhase k)).trace = 0 ∧
      (∀ m, m < k → (exec s (racePhase k)).tasks[m]? = some ⟨Interrupt, .atAdd⟩) ∧
      (∀ m, k ≤ m → m < n →
        (exec s (racePhase k)).tasks[m]? = some ⟨Interrupt, .start⟩) := by
  intro k
  induction k with
  | zero =>
    intro _
    refine ⟨hex, hc, by simp [racePhase, exec, htr, adds],
      by simp [racePhase, exec, htr, addsOne],
      by simp [racePhase, exec, htr, cleanupCalls], ?_, ?_⟩
    · intro m hm; omega
    · intro m _ hm
      show s.tasks[m]? = _
      rw [ht, List.getElem?_replicate, if_pos hm]
  | succ k ih =>
    intro hk
    obtain ⟨h1, h2, h3, h4, h5, h6, h7⟩ := ih (by omega)
    have hrun : exec s (racePhase (k + 1))
        = step (step (exec s (racePhase k)) (.run k)) (.run k) := by
      simp [racePhase, exec, List.foldl_append]
    generalize exec s (racePhase k) = u at h1 h2 h3 h4 h5 h6 h7 hrun
    have e1 := run_start u k Interrupt h1 (h7 k (le_refl k) (by omega))
    have hlt : k < u.tasks.length := by
      by_contra hge
      have := h7 k (le_refl k) (by omega)
      rw [List.getElem?_eq_none (by omega)] at this
      cases this
    have e2 := run_load (step u (.run k)) k (by rw [e1]; exact h1)
      (by rw [e1]; simp [List.getElem?_set, hlt]) (by rw [e1]; show u.interruptCount < 3; omega)
    rw [hrun, e2, e1]
    refine ⟨h1, h2, ?_, ?_, ?_, ?_, ?_⟩
    · simp [adds, List.countP_append] at h3 ⊢; exact h3
    · simp [addsOne, List.countP_append] at h4 ⊢; exact h4
    · simp [cleanupCalls, List.countP_append] at h5 ⊢; exact h5
    · intro m hm
      by_cases hmk : m = k
      · subst hmk; simp [List.getElem?_set, hlt]
      · have := h6 m (by omega)
        simp [List.getElem?_set, Ne.symm hmk, this]
    · intro m hm1 hm2
      have := h7 m (by omega) hm2
      have hmk : k ≠ m := by omega
      simp [List.getElem?_set, hmk, this]

/-- Second phase of the race: the goroutines increment one after another, and
each one that got 1 calls the cleanup handler. -/
theorem race_adds (n : Nat) (s : State) (hex : s.exited = none)
    (ha : adds s.trace = 0) (ho : addsOne s.trace = 0) (hcl : cleanupCalls s.trace = 0)
    (ht : ∀ m, m < n → s.tasks[m]? = some ⟨Interrupt, .atAdd⟩) :
    ∀ k, k ≤ n →
      (exec s (racePhase k)).exited = none ∧
      adds (exec s (racePhase k)).trace = k ∧
      cleanupCalls (exec s (racePhase k)).trace = addsOne (exec s (racePhase k)).trace ∧
      (∀ m, k ≤ m → m < n →
        (exec s (racePhase k)).tasks[m]? = some ⟨Interrupt, .atAdd⟩) := by
  intro k
  induction k with
  | zero =>
    intro _
    refine ⟨hex, ha, ?_, ?_⟩
    · show cleanupCalls s.trace = addsOne s.trace
      rw [ho, hcl]
    · intro m _ hm; exact ht m hm
  | succ k ih =>
    intro hk
    obtain ⟨h1, h2, h3, h4⟩ := ih (by omega)
    have hrun : exec s (racePhase (k + 1))
        = step (step (exec s (racePhase k)) (.run k)) (.run k) := by
      simp [racePhase, exec, List.foldl_append]
    generalize exec s (racePhase k) = u at h1 h2 h3 h4 hrun
    have hget := h4 k (le_refl k) (by omega)
    have hlt : k < u.tasks.length := by
      by_contra hge
      rw [List.getElem?_eq_none (by omega)] at hget
      cases hget
    have e1 := run_add u k Interrupt h1 hget
    by_cases hv : (u.interruptCount + 1) % wrap = 1
    · rw [if_pos hv] at e1
      have e2 := run_call (step u (.run k)) k Interrupt (by rw [e1])
        (by rw [e1]; simp [List.getElem?_set, hlt])
      rw [hrun, e2, e1]
      refine ⟨rfl, ?_, ?_, ?_⟩
      · simp [adds, List.countP_append] at h2 ⊢; exact h2
      · simp [cleanupCalls, addsOne, List.countP_append, hv] at h3 ⊢; exact h3
      · intro m hm1 hm2
        have := h4 m (by omega) hm2
        have hmk : k ≠ m := by omega
        simp [List.getElem?_set, hmk, this]
    · rw [if_neg hv] at e1
      have e2 := run_done (step u (.run k)) k Interrupt
        (by rw [e1]; simp [List.getElem?_set, hlt])
      rw [hrun, e2, e1]
      refine ⟨rfl, ?_, ?_, ?_⟩
      · simp [adds, List.countP_append] at h2 ⊢; exact h2
      · simp [cleanupCalls, addsOne, List.countP_append, hv] at h3 ⊢; exact h3
      · intro m hm1 hm2
        have := h4 m (by omega) hm2
        have hmk : k ≠ m := by omega
        simp [List.getElem?_set, hmk, this]

/-- When `n` goroutines race as in `raceSchedule`, all `n` increments are
performed, the process stays alive, and there are as many calls of the
cleanup handler as there are increments that returned 1. -/
theorem race_result (n : Nat) :
    (exec init (raceSchedule n)).exited = none ∧
    adds (exec init (raceSchedule n)).trace = n ∧
    cleanupCalls (exec init (raceSchedule n)).trace
      = addsOne (exec init (raceSchedule n)).trace := by
  have e0 := exec_spawns n .interrupt init rfl
  have hsplit : exec init (raceSchedule n)
      = exec (exec (exec init (List.replicate n (.spawn .interrupt))) (racePhase n))
          (racePhase n) := by
    simp [raceSchedule, exec, List.foldl_append]
  rw [hsplit]
  generalize exec init (List.replicate n (.spawn .interrupt)) = s0 at e0 ⊢
  obtain ⟨h1, _, h3, h4, h5, h6, _⟩ :=
    race_loads n s0 (by rw [e0]; rfl) (by rw [e0]; rfl) (by rw [e0]; rfl)
      (by rw [e0]; simp [init, Monitored.sig]) n (le_refl n)
  obtain ⟨g1, g2, g3, _⟩ :=
    race_adds n (exec s0 (racePhase n)) h1 h3 h4 h5 h6 n (le_refl n)
  exact ⟨g1, g2, g3⟩

/-! ## Cleanup runs at most once -/

/-- C1: for every finite sequence of interrupt/terminate events dispatched
from `interruptCount = 0`, the cleanup handler is called at most once, and
only by a goroutine whose increment returned 1.  When the events are
dispatched one at a time (the cleanup handler returning at any point of the
sequence, or never) the caller is the first goroutine and no later one ever
calls it; the same bound holds under every interleaving of the goroutines'
steps in which at most `2^32` goroutines have been started. -/
theorem cleanup_at_most_once (acts : List SeqAction) (racing : List Action) :
    init.interruptCount = 0 ∧
    cleanupCalls (execSeq init acts).trace ≤ 1 ∧
    (∀ tid, Event.cleanupCall tid ∈ (execSeq init acts).trace →
      tid = 0 ∧ Event.add tid 1 ∈ (execSeq init acts).trace) ∧
    ((exec init racing).tasks.length ≤ wrap →
      cleanupCalls (exec init racing).trace ≤ 1 ∧
      ∀ tid, Event.cleanupCall tid ∈ (exec init racing).trace →
        Event.add tid 1 ∈ (exec init racing).trace) := by
  refine ⟨rfl, (cleanup_once_aux acts).1, ?_, ?_⟩
  · intro tid h
    exact (cleanup_once_aux acts).2 tid ((mem_cleanupCallers _ tid).2 h)
  · intro hn
    have h := inv_reachable racing
    have hle := h.addsLe
    have hone := h.ones
    have hcalls := h.calls
    refine ⟨?_, h.callers⟩
    have h1 : addsOne (exec init racing).trace ≤ 1 := by
      rw [hone]
      simp only [wrap] at hn ⊢
      omega
    omega

/-! ## A single signal -/

/-- C2: when exactly one interrupt or terminate signal is observed (counter
initially 0), its goroutine calls the cleanup handler once and then exits with
code 0.  In every interleaving of that goroutine's steps its events form an
initial segment of `load 0, add 1, cleanupCall, cleanupReturn, exit 0` (after
the log line), so the exit comes strictly after the return of the cleanup
handler, and when `os.Exit` has been called the whole segment has happened;
as long as the cleanup handler does not return there is no exit. -/
theorem single_signal_cleanup_then_exit (k : Monitored) (acts : List Action)
    (tids : List Nat) :
    (execSeq init [.signal k, .finish 0]).trace = soloTrace k ∧
    (execSeq init [.signal k, .finish 0]).exited = some 0 ∧
    cleanupCalls (soloTrace k) = 1 ∧
    (exec init (.spawn k :: acts.filter fun a => match a with
        | .spawn _ => false
        | _ => true)).trace <+: soloTrace k ∧
    ((exec init (.spawn k :: acts.filter fun a => match a with
        | .spawn _ => false
        | _ => true)).exited = none ∨
      ((exec init (.spawn k :: acts.filter fun a => match a with
          | .spawn _ => false
          | _ => true)).exited = some 0 ∧
        (exec init (.spawn k :: acts.filter fun a => match a with
          | .spawn _ => false
          | _ => true)).trace = soloTrace k)) ∧
    (exec init (.spawn k :: tids.map Action.run)).exited = none := by
  refine ⟨by cases k <;> rfl, by cases k <;> rfl, by cases k <;> rfl, ?_, ?_, ?_⟩
  · obtain ⟨j, hj, e⟩ := solo_exec k acts 0 (by omega)
    have e2 : exec init (.spawn k :: acts.filter fun a => match a with
        | .spawn _ => false
        | _ => true) = solo k j := e
    rw [e2, (solo_trace k j hj).1]
    exact List.take_prefix _ _
  · obtain ⟨j, hj, e⟩ := solo_exec k acts 0 (by omega)
    have e2 : exec init (.spawn k :: acts.filter fun a => match a with
        | .spawn _ => false
        | _ => true) = solo k j := e
    rw [e2]
    rcases (solo_trace k j hj).2 with h | ⟨h6, h⟩
    · exact Or.inl h
    · refine Or.inr ⟨h, ?_⟩
      rw [(solo_trace k j hj).1, h6]
      rfl
  · obtain ⟨j, hj, e⟩ := solo_exec_run k tids 0 (by omega)
    have e2 : exec init (.spawn k :: tids.map Action.run) = solo k j := e
    rw [e2]
    exact solo_alive k j hj

/-! ## Escalation: the second, third and fourth signal -/

/-- The code evaluated at three interrupts received while the cleanup started
by the first is still running: the third goroutine increments the counter to
3 and returns; nothing is logged about a forced shutdown and `os.Exit` is not
called. -/
theorem three_interrupts_no_forced_exit :
    (signals [.interrupt, .interrupt, .interrupt]).exited = none ∧
    (signals [.interrupt, .interrupt, .interrupt]).tasks =
      [⟨Interrupt, .inCleanup⟩, ⟨Interrupt, .done⟩, ⟨Interrupt, .done⟩] ∧
    (signals [.interrupt, .interrupt, .interrupt]).trace =
      [.info 0 (.processing Interrupt), .load 0 0, .add 0 1, .cleanupCall 0,
       .info 1 (.processing Interrupt), .load 1 1, .add 1 2,
       .info 2 (.processing Interrupt), .load 2 2, .add 2 3] := by
  exact ⟨rfl, rfl, rfl⟩

/-- C4: for every sequence of at least four interrupt/terminate events
dispatched one after another while the first event's cleanup has not
returned, the fourth goroutine loads the value 3, logs the forced shutdown
and exits with code 128 plus the number of the fourth signal; it neither
increments the counter nor calls the cleanup handler, which was called once,
by the first goroutine.  Later events find the process gone. -/
theorem fourth_signal_forces_exit (a b c d : Monitored) (rest : List Monitored) :
    (signals [a, b, c]).exited = none ∧
    (signals [a, b, c]).interruptCount = 3 ∧
    (signals [a, b, c, d]).trace = (signals [a, b, c]).trace ++
      [.info 3 (.processing d.sig), .load 3 3, .info 3 .forcing,
       .exit 3 (128 + d.sig)] ∧
    (signals [a, b, c, d]).exited = some (128 + d.sig) ∧
    (signals [a, b, c, d]).interruptCount = 3 ∧
    cleanupCallers (signals [a, b, c, d]).trace = [0] ∧
    signals (a :: b :: c :: d :: rest) = signals [a, b, c, d] ∧
    (signals [.interrupt, .interrupt, .interrupt, .terminate]).exited =
      some (128 + SIGTERM) ∧
    cleanupCallers (signals [.interrupt, .interrupt, .interrupt, .terminate]).trace
      = [0] := by
  refine ⟨?_, ?_, ?_, ?_, ?_, ?_, ?_, rfl, rfl⟩
  · cases a <;> cases b <;> cases c <;> rfl
  · cases a <;> cases b <;> cases c <;> rfl
  · cases a <;> cases b <;> cases c <;> cases d <;> rfl
  · exact signals_four_exited a b c d
  · cases a <;> cases b <;> cases c <;> cases d <;> rfl
  · cases a <;> cases b <;> cases c <;> cases d <;> rfl
  · have h := signals_append [a, b, c, d] rest
    rw [execSeq_of_exited _ _ _ (signals_four_exited a b c d)] at h
    exact h

/-- C5: when a second and a third interrupt/terminate event are dispatched
while the first event's cleanup is still running, each of their goroutines
logs, loads, increments and returns: no cleanup call, no exit.  After the
third event the counter equals 3, the process is alive and the first
goroutine is still inside the cleanup handler. -/
theorem second_third_signals_do_nothing (a b c : Monitored) :
    (signals [a]).tasks = [⟨a.sig, .inCleanup⟩] ∧
    (signals [a, b]).trace = (signals [a]).trace ++
      [.info 1 (.processing b.sig), .load 1 1, .add 1 2] ∧
    (signals [a, b, c]).trace = (signals [a, b]).trace ++
      [.info 2 (.processing c.sig), .load 2 2, .add 2 3] ∧
    (signals [a, b]).exited = none ∧
    (signals [a, b, c]).exited = none ∧
    (signals [a, b]).tasks = [⟨a.sig, .inCleanup⟩, ⟨b.sig, .done⟩] ∧
    (signals [a, b, c]).tasks =
      [⟨a.sig, .inCleanup⟩, ⟨b.sig, .done⟩, ⟨c.sig, .done⟩] ∧
    (signals [a, b, c]).interruptCount = 3 := by
  refine ⟨?_, ?_, ?_, ?_, ?_, ?_, ?_, ?_⟩
  · cases a <;> rfl
  · cases a <;> cases b <;> rfl
  · cases a <;> cases b <;> cases c <;> rfl
  · cases a <;> cases b <;> rfl
  · cases a <;> cases b <;> cases c <;> rfl
  · cases a <;> cases b <;> rfl
  · cases a <;> cases b <;> cases c <;> rfl
  · cases a <;> cases b <;> cases c <;> rfl

/-! ## Racing goroutines and the width of the counter -/

/-- C6: the code evaluated where it breaks "exactly one goroutine gets 1 and
runs cleanup", which is also its own comment "Initiate the cleanup only
once": when `2^32 + 1` goroutines race and all of them load the counter
(reading 0) before any of them increments it, the `uint32` increments return
`1, 2, ..., 2^32 - 1, 0, 1`, so two increments return 1 and the cleanup
handler is called twice, the process still being alive. -/
theorem racing_goroutines_call_cleanup_twice :
    (exec init (raceSchedule (wrap + 1))).exited = none ∧
    addsOne (exec init (raceSchedule (wrap + 1))).trace = 2 ∧
    cleanupCalls (exec init (raceSchedule (wrap + 1))).trace = 2 := by
  obtain ⟨h1, h2, h3⟩ := race_result (wrap + 1)
  have hone := (inv_reachable (raceSchedule (wrap + 1))).ones
  rw [h2] at hone
  have h4 : addsOne (exec init (raceSchedule (wrap + 1))).trace = 2 := by
    rw [hone]; simp only [wrap]
  exact ⟨h1, h4, by rw [h3, h4]⟩

/-- How far the `== 1` test does protect the cleanup handler: under every
interleaving of the goroutines' steps (load and increment being separate
steps) in which at most `2^32` goroutines have been started, at most one
increment returns 1 and it is returned to one goroutine only; exactly one
increment has returned 1 as soon as some goroutine is past its load and
increment; the cleanup handler is called at most once, and only by the
goroutine whose increment returned 1. -/
theorem one_cleanup_under_races (acts : List Action)
    (hn : (exec init acts).tasks.length ≤ wrap) :
    addsOne (exec init acts).trace ≤ 1 ∧
    (∀ tid1 tid2 : Nat, Event.add tid1 1 ∈ (exec init acts).trace →
      Event.add tid2 1 ∈ (exec init acts).trace → tid1 = tid2) ∧
    ((∃ (tid : Nat) (t : Task), (exec init acts).tasks[tid]? = some t ∧
        t.pc.beforeAdd = false) → addsOne (exec init acts).trace = 1) ∧
    cleanupCalls (exec init acts).trace ≤ 1 ∧
    (∀ tid : Nat, Event.cleanupCall tid ∈ (exec init acts).trace →
      Event.add tid 1 ∈ (exec init acts).trace) := by
  have h := inv_reachable acts
  have hle := h.addsLe
  have hone := h.ones
  have hcalls := h.calls
  have hA : adds (exec init acts).trace ≤ wrap := by omega
  have h1 : addsOne (exec init acts).trace ≤ 1 := by
    rw [hone]
    simp only [wrap] at hA ⊢
    omega
  refine ⟨h1, ?_, ?_, by omega, h.callers⟩
  · intro tid1 tid2 m1 m2
    have := eq_of_countP_le_one _ _ h1 _ _ m1 m2 (by simp) (by simp)
    simpa using this
  · rintro ⟨tid, t, ht, hp⟩
    have := h.past tid t ht hp
    rw [hone]
    simp only [wrap] at hA ⊢
    omega

/-- Instance of `one_cleanup_under_races`: two goroutines both load 0 before
either increments; the second to be started increments first and is the one that
calls the cleanup handler. -/
theorem one_cleanup_under_races_witness :
    (exec init [.spawn .interrupt, .spawn .terminate, .run 0, .run 0, .run 1, .run 1,
        .run 1, .run 0, .run 1]).tasks.length ≤ wrap ∧
    addsOne (exec init [.spawn .interrupt, .spawn .terminate, .run 0, .run 0, .run 1,
        .run 1, .run 1, .run 0, .run 1]).trace = 1 ∧
    (exec init [.spawn .interrupt, .spawn .terminate, .run 0, .run 0, .run 1, .run 1,
        .run 1, .run 0, .run 1]).trace =
      [.info 0 (.processing Interrupt), .load 0 0, .info 1 (.processing SIGTERM),
       .load 1 0, .add 1 1, .add 0 2, .cleanupCall 1] :=
  ⟨by decide,
    (one_cleanup_under_races _ (by decide)).2.2.1 ⟨1, ⟨SIGTERM, .inCleanup⟩, rfl, rfl⟩,
    rfl⟩

/-! ## The counter -/

/-- C7: the counter starts at zero and never decreases: along every
sequence of events dispatched one at a time, each dispatch (and each return
of the cleanup handler) leaves `interruptCount` unchanged or increases it by
exactly one; the same holds for every step of every interleaving in which
fewer than `2^32` goroutines have been started; and no step of any goroutine
writes anything to the counter but its `uint32` increment. -/
theorem counter_never_decreases (acts : List SeqAction) (a : SeqAction)
    (racing : List Action) (b : Action) :
    init.interruptCount = 0 ∧
    ((stepSeq (execSeq init acts) a).interruptCount = (execSeq init acts).interruptCount ∨
      (stepSeq (execSeq init acts) a).interruptCount
        = (execSeq init acts).interruptCount + 1) ∧
    (execSeq init acts).interruptCount ≤ (stepSeq (execSeq init acts) a).interruptCount ∧
    ((exec init racing).tasks.length < wrap →
      (step (exec init racing) b).interruptCount = (exec init racing).interruptCount ∨
      (step (exec init racing) b).interruptCount
        = (exec init racing).interruptCount + 1) ∧
    (∀ (s : State) (b : Action), (step s b).interruptCount = s.interruptCount ∨
      (step s b).interruptCount = (s.interruptCount + 1) % wrap) := by
  have key : (stepSeq (execSeq init acts) a).interruptCount
        = (execSeq init acts).interruptCount ∨
      (stepSeq (execSeq init acts) a).interruptCount
        = (execSeq init acts).interruptCount + 1 := by
    refine stepSeq_ind
      (fun s t => t.interruptCount = s.interruptCount ∨
        t.interruptCount = s.interruptCount + 1) ?_ ?_ ?_ acts a
    · intro s; exact Or.inl rfl
    · refine short_cases3 _ ?_ ?_ ?_ ?_
      · intro k; cases k <;> decide
      · intro a k; cases a <;> cases k <;> decide
      · intro a b k; cases a <;> cases b <;> cases k <;> decide
      · intro a b c k; cases a <;> cases b <;> cases c <;> cases k <;> decide
    · refine short_cases3 _ ?_ ?_ ?_ ?_
      · decide
      · intro a; cases a <;> decide
      · intro a b; cases a <;> cases b <;> decide
      · intro a b c; cases a <;> cases b <;> cases c <;> decide
  refine ⟨rfl, key, ?_, step_counter_no_wrap racing b, step_counter⟩
  rcases key with h | h <;> omega

/-- C10: when events are dispatched one at a time, `interruptCount` never
exceeds 3 (while the process lives it is the number of events so far, capped
at 3); once it equals 3 no step changes it; every increment returned the
number of the event, at most 3, so the `uint32` addition never wrapped; and an
event dispatched when the counter is 3, which is every event from the fourth
on, loads 3, logs the forced shutdown and exits with 128 plus its signal
number. -/
theorem counter_at_most_three (acts : List SeqAction) (a : SeqAction) (k : Monitored) :
    (execSeq init acts).interruptCount ≤ 3 ∧
    ((execSeq init acts).exited = none →
      (execSeq init acts).interruptCount = min 3 (execSeq init acts).tasks.length) ∧
    ((execSeq init acts).interruptCount = 3 →
      (stepSeq (execSeq init acts) a).interruptCount = 3) ∧
    (∀ tid v, Event.add tid v ∈ (execSeq init acts).trace → v = tid + 1 ∧ v ≤ 3) ∧
    ((execSeq init acts).interruptCount = 3 → (execSeq init acts).exited = none →
      (dispatch (execSeq init acts) k).exited = some (128 + k.sig) ∧
      (dispatch (execSeq init acts) k).interruptCount = 3 ∧
      (dispatch (execSeq init acts) k).trace = (execSeq init acts).trace ++
        [.info (execSeq init acts).tasks.length (.processing k.sig),
         .load (execSeq init acts).tasks.length 3,
         .info (execSeq init acts).tasks.length .forcing,
         .exit (execSeq init acts).tasks.length (128 + k.sig)]) := by
  obtain ⟨h1, h2, h3, h4⟩ := counter_bound_aux acts k
  refine ⟨h1, h2, ?_, ?_, h4⟩
  · refine stepSeq_ind (fun s t => s.interruptCount = 3 → t.interruptCount = 3)
      ?_ ?_ ?_ acts a
    · intro s h; exact h
    · refine short_cases3 _ ?_ ?_ ?_ ?_
      · intro k; cases k <;> decide
      · intro a k; cases a <;> cases k <;> decide
      · intro a b k; cases a <;> cases b <;> cases k <;> decide
      · intro a b c k; cases a <;> cases b <;> cases c <;> cases k <;> decide
    · refine short_cases3 _ ?_ ?_ ?_ ?_
      · decide
      · intro a; cases a <;> decide
      · intro a b; cases a <;> cases b <;> decide
      · intro a b c; cases a <;> cases b <;> cases c <;> decide
  · intro tid v h
    exact h3 (tid, v) (mem_addEvents _ tid v h)

/-! ## Exit codes -/

/-- C8: in every interleaving of the goroutines of every sequence of
interrupt/terminate events, `os.Exit` is called at most once, and a call by
goroutine `tid` has code 0 or 128 plus the number of the signal that goroutine
handles.  Code 0 is issued only by a goroutine whose cleanup call has
returned; the other code is never 0 (it is 130 or 143). -/
theorem exit_codes (acts : List Action) :
    (128 + Interrupt ≠ 0 ∧ 128 + SIGTERM ≠ 0) ∧
    exits (exec init acts).trace ≤ 1 ∧
    ∀ (tid : Nat) (code : Int), Event.exit tid code ∈ (exec init acts).trace →
      (exec init acts).exited = some code ∧
      ∃ t, (exec init acts).tasks[tid]? = some t ∧
        (t.sig = Interrupt ∨ t.sig = SIGTERM) ∧
        ((code = 0 ∧ Event.cleanupCall tid ∈ (exec init acts).trace ∧
            Event.cleanupReturn tid ∈ (exec init acts).trace) ∨
          (code = 128 + t.sig ∧ code ≠ 0)) := by
  have h := inv_reachable acts
  refine ⟨⟨by decide, by decide⟩, ?_, ?_⟩
  · by_contra hgt
    obtain ⟨tid, code, hmem⟩ :=
      exists_exit_of_exits_pos (exec init acts).trace (by omega)
    have := (h.exitEv tid code hmem).2.1
    omega
  · intro tid code hmem
    obtain ⟨h1, _, t, h3, h4⟩ := h.exitEv tid code hmem
    refine ⟨h1, t, h3, h.monitored tid t h3, ?_⟩
    rcases h4 with ⟨hc, hpc⟩ | ⟨hc, _⟩
    · exact Or.inl ⟨hc, h.atExit0 tid t h3 hpc⟩
    · right
      refine ⟨hc, ?_⟩
      rcases h.monitored tid t h3 with hs | hs <;> rw [hc, hs] <;> decide

/-! ## The kind of a signal does not matter -/

/-- C9: for events dispatched one after another, two schedules that agree
in everything but the kinds of their signals (the same events at the same
positions, the cleanup handler returning at the same points) reach states
that agree in everything but those kinds: the same counter, every goroutine
at the same program counter, the same sequence of loads, increments, cleanup
calls and exits, the process alive, exited cleanly, or exited by force in
both.  What is forgotten by `State.shape` is the signal held by each
goroutine, the signal named in its "Processing signal" log line, and the
number added to 128 in a forced exit code. -/
theorem kind_of_signal_does_not_matter (acts1 acts2 : List SeqAction)
    (h : acts1.map SeqAction.shape = acts2.map SeqAction.shape) :
    (execSeq init acts1).shape = (execSeq init acts2).shape := by
  obtain ⟨ks1, ks2, hlen, h4, ⟨e1, e2⟩ | ⟨h3, hne, e1, e2⟩⟩ :=
    execSeq_same_shape acts1 acts2 init init h
      ⟨[], [], rfl, by simp, Or.inl ⟨rfl, rfl⟩⟩
  · rw [e1, e2, shape_signals ks1 h4, shape_signals ks2 (by omega), hlen]
  · rw [e1, e2, shape_finish ks1 h3, shape_finish ks2 (by omega), hlen]

/-- Instance of C9: the four signals interrupt, terminate, interrupt, terminate
and the four signals terminate, interrupt, terminate, interrupt, dispatched
while the first cleanup is running. -/
theorem kind_of_signal_does_not_matter_witness :
    [SeqAction.signal .interrupt, .signal .terminate, .signal .interrupt,
        .signal .terminate].map SeqAction.shape
      = [SeqAction.signal .terminate, .signal .interrupt, .signal .terminate,
        .signal .interrupt].map SeqAction.shape ∧
    (execSeq init [.signal .interrupt, .signal .terminate, .signal .interrupt,
        .signal .terminate]).shape
      = (execSeq init [.signal .terminate, .signal .interrupt, .signal .terminate,
        .signal .interrupt]).shape :=
  ⟨by decide, kind_of_signal_does_not_matter _ _ (by decide)⟩

end Trap
